import Mathlib

/-!
Verification development for the VersionedStorage engine of
MixedReality-Sharing (libs/VersionedStorage-cpp).

The repository ships the public snapshot interface in
`include/Microsoft/MixedReality/Sharing/VersionedStorage/Snapshot.h`; the
writer/engine implementation (Storage, version chains, index blocks) is not
part of the sources available here, so those parts are modelled from the
specification, as noted on each definition.

The model is sequential: keys, subkeys, payloads are opaque identities
(modelled as `Nat`), versions are the engine's 64-bit counter (modelled as
`Nat`; overflow is unreachable in the spec's regime of one increment per
mutation), each (key, subkey) pair carries a newest-first version chain of
payload entries, and a tombstone is a chain entry with no payload.
-/

namespace VersionedStorage

/-- Version counter; the spec reserves version 0 as invalid. -/
abbrev Version := Nat

/-- Opaque key identity (hashing/equality are delegated to `Behavior` in the
source; the model only needs decidable equality). -/
abbrev Key := Nat

/-- 64-bit ordinal distinguishing payload slots under one key. -/
abbrev Subkey := Nat

/-- Opaque payload reference. -/
abbrev Payload := Nat

/-- Modelled from the spec: one entry of a version chain — the version the
writer assigned and the payload; `none` as payload is a tombstone recording a
logical deletion. -/
structure ChainEntry where
  version : Version
  payload : Option Payload
deriving DecidableEq, Repr

/-- Modelled from the spec: per (key, subkey) append-only version chain,
newest entry first. -/
abbrev VersionChain := List ChainEntry

/-- `VersionedPayloadHandle` from the source header: a payload reference
tagged with the version of the storage when it was assigned; `none` is the
empty handle (`has_payload()` false). -/
abbrev VersionedPayloadHandle := Option (Payload × Version)

/-- Modelled from the spec: the index block content — key states, each key
with its list of subkey chains. -/
abbrev IndexBlock := List (Key × List (Subkey × VersionChain))

/-- Modelled from the spec: chain resolution — walk the newest-first chain
and stop at the first entry whose assigned version is at most `v`. -/
def resolveChain (c : VersionChain) (v : Version) : Option ChainEntry :=
  match c with
  | [] => none
  | e :: rest => if e.version ≤ v then some e else resolveChain rest v

/-- Turns a resolved chain entry into a `VersionedPayloadHandle`: empty when
nothing resolved or when the resolved entry is a tombstone. -/
def toHandle : Option ChainEntry → VersionedPayloadHandle
  | some ⟨ver, some p⟩ => some (p, ver)
  | _ => none

/-- Finds the subkey list of a key state in an index block (`[]` if the key
has no state). -/
def lookupSubkeys (idx : IndexBlock) (k : Key) : List (Subkey × VersionChain) :=
  match idx with
  | [] => []
  | (k', l) :: rest => if k' = k then l else lookupSubkeys rest k

/-- Finds the chain of a subkey in a key state (`[]` if the subkey has no
chain). -/
def lookupList (l : List (Subkey × VersionChain)) (s : Subkey) : VersionChain :=
  match l with
  | [] => []
  | (s', c) :: rest => if s' = s then c else lookupList rest s

/-- The version chain stored for (k, s), `[]` when the key or subkey has no
state. -/
def lookupChain (idx : IndexBlock) (k : Key) (s : Subkey) : VersionChain :=
  lookupList (lookupSubkeys idx k) s

/-- Modelled from the spec: the storage engine — the next-version counter and
the current index block; the sole mutator. -/
structure Storage where
  currentVersion : Version
  index : IndexBlock
deriving DecidableEq, Repr

/-- Modelled from the spec: a freshly constructed storage; version 0 is
reserved/invalid, so the initial published (empty) state is version 1. -/
def Storage.empty : Storage := ⟨1, []⟩

/-- Modelled from the spec: prepend a new entry to the chain of subkey `s`,
creating the chain lazily on first write. -/
def updateSubkey (l : List (Subkey × VersionChain)) (s : Subkey) (e : ChainEntry) :
    List (Subkey × VersionChain) :=
  match l with
  | [] => [(s, [e])]
  | (s', c) :: rest =>
    if s' = s then (s', e :: c) :: rest else (s', c) :: updateSubkey rest s e

/-- Modelled from the spec: prepend a new entry to the chain of (k, s),
creating the key state lazily on first write. -/
def updateIndex (idx : IndexBlock) (k : Key) (s : Subkey) (e : ChainEntry) : IndexBlock :=
  match idx with
  | [] => [(k, [(s, [e])])]
  | (k', l) :: rest =>
    if k' = k then (k', updateSubkey l s e) :: rest else (k', l) :: updateIndex rest k s e

/-- A chain is live at version `v` when it resolves to a non-tombstone
entry at `v`. -/
def isLive (v : Version) (c : VersionChain) : Bool :=
  (toHandle (resolveChain c v)).isSome

/-- Modelled from the spec: whole-key deletion appends a tombstone at the
shared version `vNew` to every subkey chain that is live at `vOld`. -/
def tombstoneLive (vOld vNew : Version) (l : List (Subkey × VersionChain)) :
    List (Subkey × VersionChain) :=
  l.map fun sc => if isLive vOld sc.2 then (sc.1, ⟨vNew, none⟩ :: sc.2) else sc

/-- Modelled from the spec: the index block after `Delete(key)`. -/
def deleteKeyIndex (idx : IndexBlock) (k : Key) (vOld vNew : Version) : IndexBlock :=
  idx.map fun ks => if ks.1 = k then (ks.1, tombstoneLive vOld vNew ks.2) else ks

/-- Modelled from the spec: the writer's mutating calls — `Put(key, subkey,
payload)`, `Delete(key, subkey)` and whole-key `Delete(key)`. -/
inductive Op where
  | put (k : Key) (s : Subkey) (p : Payload)
  | del (k : Key) (s : Subkey)
  | delKey (k : Key)
deriving DecidableEq, Repr

/-- Modelled from the spec: one mutating call — assigns the next version
number and appends the corresponding entries; the counter advances by
exactly one per call. -/
def applyOp (σ : Storage) (op : Op) : Storage :=
  match op with
  | .put k s p =>
    ⟨σ.currentVersion + 1, updateIndex σ.index k s ⟨σ.currentVersion + 1, some p⟩⟩
  | .del k s =>
    ⟨σ.currentVersion + 1, updateIndex σ.index k s ⟨σ.currentVersion + 1, none⟩⟩
  | .delKey k =>
    ⟨σ.currentVersion + 1, deleteKeyIndex σ.index k σ.currentVersion (σ.currentVersion + 1)⟩

/-- A sequence of mutating calls applied in order. -/
def applyOps (σ : Storage) (ops : List Op) : Storage :=
  ops.foldl applyOp σ

/-- Snapshot handle from the source header: whether a header block is
referenced (`header_block_` non-null), plus the `SnapshotInfo` triple
(version and cached key/subkey counts). -/
structure Snapshot where
  hasBlock : Bool
  version : Version
  keysCount : Nat
  subkeysCount : Nat
deriving DecidableEq, Repr

/-- The default-constructed snapshot: null header block and zero-initialized
`SnapshotInfo` (from the member initializers in Snapshot.h). -/
def Snapshot.initial : Snapshot := ⟨false, 0, 0, 0⟩

/-- A key state has at least one subkey in version `v` when some chain is
live at `v`. -/
def keyHasSubkeys (v : Version) (l : List (Subkey × VersionChain)) : Bool :=
  l.any fun sc => isLive v sc.2

/-- The number of subkeys of one key state that are live at version `v`. -/
def presentSubkeysCount (v : Version) (l : List (Subkey × VersionChain)) : Nat :=
  l.countP fun sc => isLive v sc.2

/-- Modelled from the spec: `Storage::TakeSnapshot` — reads the current
version, pins the current index block and caches the key/subkey counts of
that version; the storage itself is unchanged. -/
def takeSnapshot (σ : Storage) : Snapshot × Storage :=
  (⟨true, σ.currentVersion,
    (σ.index.filter fun ks => keyHasSubkeys σ.currentVersion ks.2).length,
    ((σ.index.map fun ks => presentSubkeysCount σ.currentVersion ks.2).sum)⟩, σ)

/-- `KeyView` from the source: an opaque token for one key state, usable to
enumerate that key's subkeys without re-resolving the key lookup. -/
structure KeyView where
  key : Key
  state : List (Subkey × VersionChain)
deriving DecidableEq, Repr

/-- Modelled from the spec: `Snapshot::Get(key, subkey)` — resolves the
chain as of the snapshot's version; the empty handle when the subkey does
not exist in this snapshot (the default snapshot references no block and
finds nothing). -/
def snapshotGet (σ : Storage) (snap : Snapshot) (k : Key) (s : Subkey) :
    VersionedPayloadHandle :=
  if snap.hasBlock then toHandle (resolveChain (lookupChain σ.index k s) snap.version)
  else none

/-- Modelled from the spec: `Snapshot::Get(key)` — the view of the key state
if it has any subkeys in this version, an empty optional otherwise. -/
def snapshotGetKey (σ : Storage) (snap : Snapshot) (k : Key) : Option KeyView :=
  if snap.hasBlock then
    if keyHasSubkeys snap.version (lookupSubkeys σ.index k) then
      some ⟨k, lookupSubkeys σ.index k⟩
    else none
  else none

/-- Modelled from the spec: `Snapshot::GetSubkeys` — the subkeys of the
viewed key that have payloads in this version, with their resolved handles. -/
def getSubkeys (snap : Snapshot) (kv : KeyView) : List (Subkey × (Payload × Version)) :=
  kv.state.filterMap fun sc =>
    (toHandle (resolveChain sc.2 snap.version)).map fun pv => (sc.1, pv)

/-- Modelled from the spec: `Snapshot::GetSubkeysCount` — a shortcut to
`Get(key)` which returns 0 if the key was not found. -/
def getSubkeysCount (σ : Storage) (snap : Snapshot) (k : Key) : Nat :=
  match snapshotGetKey σ snap k with
  | none => 0
  | some kv => presentSubkeysCount snap.version kv.state

/-- Modelled from the spec: iterating a snapshot from `begin()` to `end()` —
all keys that have at least one subkey in this version, in the index block's
order. -/
def snapshotKeys (σ : Storage) (snap : Snapshot) : List Key :=
  if snap.hasBlock then
    (σ.index.filter fun ks => keyHasSubkeys snap.version ks.2).map Prod.fst
  else []

/-- Well-formedness of one chain relative to the engine's current version:
versions strictly decrease from the newest entry, and every assigned version
lies in [1, v]. -/
def chainWF (v : Version) (c : VersionChain) : Prop :=
  List.Pairwise (fun a b => b.version < a.version) c ∧
    ∀ e ∈ c, 1 ≤ e.version ∧ e.version ≤ v

/-- Well-formedness of the whole engine state: the published version is at
least 1, key states and subkey slots are unduplicated, and every chain is
well-formed for the current version. -/
def StorageWF (σ : Storage) : Prop :=
  1 ≤ σ.currentVersion ∧
    (σ.index.map Prod.fst).Nodup ∧
    ∀ ks ∈ σ.index, (ks.2.map Prod.fst).Nodup ∧ ∀ sc ∈ ks.2, chainWF σ.currentVersion sc.2

/-- Every version number ever assigned to a chain entry of the current
state, with multiplicity. -/
def assignedVersions (σ : Storage) : List Version :=
  σ.index.flatMap fun ks => ks.2.flatMap fun sc => sc.2.map ChainEntry.version

instance (v : Version) (c : VersionChain) : Decidable (chainWF v c) := by
  unfold chainWF; infer_instance

instance (σ : Storage) : Decidable (StorageWF σ) := by
  unfold StorageWF; infer_instance

/-- Modelled from the spec: `TakeSnapshot` called `n` times in a row with no
interleaved mutation, collecting the returned snapshots and threading the
storage through. -/
def takeSnapshots : Nat → Storage → List Snapshot × Storage
  | 0, σ => ([], σ)
  | n + 1, σ =>
    ((takeSnapshot σ).1 :: (takeSnapshots n (takeSnapshot σ).2).1,
      (takeSnapshots n (takeSnapshot σ).2).2)

/-- Restates the spec's words for chain resolution: `e` is the latest entry
of the chain whose assigned version is at most `v`. -/
def latestAtMost (c : VersionChain) (v : Version) (e : ChainEntry) : Prop :=
  e ∈ c ∧ e.version ≤ v ∧ ∀ e' ∈ c, e'.version ≤ v → e'.version ≤ e.version

instance (c : VersionChain) (v : Version) (e : ChainEntry) :
    Decidable (latestAtMost c v e) := by
  unfold latestAtMost; infer_instance

/-- Modelled from the spec: the number of fresh allocations a mutating call
needs — a chain entry plus, for a first write to a subkey, its slot (the key
state allocation is folded into the slot count); a whole-key delete
allocates one tombstone per live subkey. -/
def allocCost (σ : Storage) (op : Op) : Nat :=
  match op with
  | .put k s _ =>
    1 + (if lookupChain σ.index k s = [] then 1 else 0)
  | .del k s =>
    1 + (if lookupChain σ.index k s = [] then 1 else 0)
  | .delKey k =>
    presentSubkeysCount σ.currentVersion (lookupSubkeys σ.index k)

/-- Modelled from the spec: a mutating call under an allocation budget.
Allocation failure (`ResourceExhaustion`) is fatal to the call and the
storage is left exactly as it was; otherwise the new version is fully
published.  The second component reports success. -/
def applyOpChecked (σ : Storage) (fuel : Nat) (op : Op) : Storage × Bool :=
  if allocCost σ op ≤ fuel then (applyOp σ op, true) else (σ, false)

/-! Extension relations: how a later state of the shared structure relates
to the structure a snapshot at version `v` pinned.  Chains only grow by
prepending entries with versions greater than `v`; key states only grow by
appending subkeys whose chains hold only such entries; the index only grows
by appending key states of that shape. -/

/-- The chain `c'` extends `c` by entries assigned strictly after version `v`. -/
def ChainExt (v : Version) (c c' : VersionChain) : Prop :=
  ∃ pre, c' = pre ++ c ∧ ∀ e ∈ pre, v < e.version

/-- The subkey list `l'` extends `l` relative to version `v`. -/
inductive SubsExt (v : Version) :
    List (Subkey × VersionChain) → List (Subkey × VersionChain) → Prop
  | nil (l' : List (Subkey × VersionChain))
      (h : ∀ sc ∈ l', ∀ e ∈ sc.2, v < e.version) : SubsExt v [] l'
  | cons (s : Subkey) (c c' : VersionChain) (l l' : List (Subkey × VersionChain))
      (hc : ChainExt v c c') (hl : SubsExt v l l') :
      SubsExt v ((s, c) :: l) ((s, c') :: l')

/-- The index block `i'` extends `i` relative to version `v`. -/
inductive IdxExt (v : Version) : IndexBlock → IndexBlock → Prop
  | nil (i' : IndexBlock)
      (h : ∀ ks ∈ i', ∀ sc ∈ ks.2, ∀ e ∈ sc.2, v < e.version) : IdxExt v [] i'
  | cons (k : Key) (l l' : List (Subkey × VersionChain)) (i i' : IndexBlock)
      (hs : SubsExt v l l') (hi : IdxExt v i i') :
      IdxExt v ((k, l) :: i) ((k, l') :: i')


/-! Basic resolution and lookup lemmas. -/

theorem isLive_nil (v : Version) : isLive v [] = false := rfl

theorem resolveChain_cons (e : ChainEntry) (c : VersionChain) (v : Version) :
    resolveChain (e :: c) v = if e.version ≤ v then some e else resolveChain c v := rfl

theorem resolveChain_all_gt {c : VersionChain} {v : Version}
    (h : ∀ e ∈ c, v < e.version) : resolveChain c v = none := by
  induction c with
  | nil => rfl
  | cons e rest ih =>
    have he := h e (List.mem_cons_self _ _)
    simp only [resolveChain, if_neg (Nat.not_le_of_lt he)]
    exact ih fun e' he' => h e' (List.mem_cons_of_mem _ he')

theorem resolveChain_eq_of_le {c : VersionChain} {v v' : Version}
    (hall : ∀ e ∈ c, e.version ≤ v) (hv : v ≤ v') :
    resolveChain c v' = resolveChain c v := by
  cases c with
  | nil => rfl
  | cons e rest =>
    have he := hall e (List.mem_cons_self _ _)
    simp only [resolveChain, if_pos he, if_pos (Nat.le_trans he hv)]

theorem lookupSubkeys_eq (idx : IndexBlock) (k : Key) :
    lookupSubkeys idx k = [] ∨ ∃ ks ∈ idx, ks.1 = k ∧ lookupSubkeys idx k = ks.2 := by
  induction idx with
  | nil => exact Or.inl rfl
  | cons ks rest ih =>
    obtain ⟨k', l⟩ := ks
    by_cases hk : k' = k
    · exact Or.inr ⟨(k', l), List.mem_cons_self _ _, hk, by simp [lookupSubkeys, hk]⟩
    · rcases ih with h | ⟨ks', hmem, hfst, heq⟩
      · exact Or.inl (by simpa [lookupSubkeys, hk] using h)
      · exact Or.inr ⟨ks', List.mem_cons_of_mem _ hmem, hfst, by simpa [lookupSubkeys, hk] using heq⟩

theorem lookupList_eq (l : List (Subkey × VersionChain)) (s : Subkey) :
    lookupList l s = [] ∨ (s, lookupList l s) ∈ l := by
  induction l with
  | nil => exact Or.inl rfl
  | cons sc rest ih =>
    obtain ⟨s', c⟩ := sc
    by_cases hs : s' = s
    · subst hs
      exact Or.inr (by simp [lookupList])
    · rcases ih with h | h
      · exact Or.inl (by simpa [lookupList, hs] using h)
      · exact Or.inr (List.mem_cons_of_mem _ (by simpa [lookupList, hs] using h))

theorem lookupList_of_nodup {l : List (Subkey × VersionChain)} {s : Subkey} {c : VersionChain}
    (hnd : (l.map Prod.fst).Nodup) (hmem : (s, c) ∈ l) : lookupList l s = c := by
  induction l with
  | nil => cases hmem
  | cons sc rest ih =>
    obtain ⟨s', c'⟩ := sc
    simp only [List.map_cons, List.nodup_cons] at hnd
    rcases List.mem_cons.1 hmem with h | h
    · injection h with hs hc
      subst hs; subst hc
      simp [lookupList]
    · have hs : s' ≠ s := by
        rintro rfl
        exact hnd.1 (List.mem_map.2 ⟨(s', c), h, rfl⟩)
      simpa [lookupList, hs] using ih hnd.2 h

theorem lookupSubkeys_of_nodup {idx : IndexBlock} {k : Key}
    {l : List (Subkey × VersionChain)}
    (hnd : (idx.map Prod.fst).Nodup) (hmem : (k, l) ∈ idx) : lookupSubkeys idx k = l := by
  induction idx with
  | nil => cases hmem
  | cons ks rest ih =>
    obtain ⟨k', l'⟩ := ks
    simp only [List.map_cons, List.nodup_cons] at hnd
    rcases List.mem_cons.1 hmem with h | h
    · injection h with hk hl
      subst hk; subst hl
      simp [lookupSubkeys]
    · have hk : k' ≠ k := by
        rintro rfl
        exact hnd.1 (List.mem_map.2 ⟨(k', l), h, rfl⟩)
      simpa [lookupSubkeys, hk] using ih hnd.2 h

/-! Lookup through the mutation primitives. -/

theorem lookupList_updateSubkey (l : List (Subkey × VersionChain)) (s : Subkey)
    (e : ChainEntry) (s' : Subkey) :
    lookupList (updateSubkey l s e) s' =
      if s' = s then e :: lookupList l s else lookupList l s' := by
  induction l with
  | nil =>
    by_cases hs : s' = s
    · simp [updateSubkey, lookupList, hs]
    · simp [updateSubkey, lookupList, hs, Ne.symm hs]
  | cons sc rest ih =>
    obtain ⟨s₁, c⟩ := sc
    by_cases h1 : s₁ = s
    · subst h1
      by_cases hs : s' = s₁
      · simp [updateSubkey, lookupList, hs]
      · simp [updateSubkey, lookupList, hs, Ne.symm hs]
    · by_cases hs : s' = s₁
      · subst hs
        simp [updateSubkey, lookupList, h1, Ne.symm h1]
      · simp [updateSubkey, lookupList, h1, hs, Ne.symm hs, ih]

theorem lookupSubkeys_updateIndex (idx : IndexBlock) (k : Key) (s : Subkey)
    (e : ChainEntry) (k' : Key) :
    lookupSubkeys (updateIndex idx k s e) k' =
      if k' = k then updateSubkey (lookupSubkeys idx k) s e else lookupSubkeys idx k' := by
  induction idx with
  | nil =>
    by_cases hk : k' = k
    · simp [updateIndex, lookupSubkeys, updateSubkey, hk]
    · simp [updateIndex, lookupSubkeys, hk, Ne.symm hk]
  | cons ks rest ih =>
    obtain ⟨k₁, l⟩ := ks
    by_cases h1 : k₁ = k
    · subst h1
      by_cases hk : k' = k₁
      · simp [updateIndex, lookupSubkeys, hk]
      · simp [updateIndex, lookupSubkeys, hk, Ne.symm hk]
    · by_cases hk : k' = k₁
      · subst hk
        simp [updateIndex, lookupSubkeys, h1, Ne.symm h1]
      · simp [updateIndex, lookupSubkeys, h1, hk, Ne.symm hk, ih]

theorem lookupChain_updateIndex (idx : IndexBlock) (k : Key) (s : Subkey)
    (e : ChainEntry) (k' : Key) (s' : Subkey) :
    lookupChain (updateIndex idx k s e) k' s' =
      if k' = k ∧ s' = s then e :: lookupChain idx k s else lookupChain idx k' s' := by
  unfold lookupChain
  rw [lookupSubkeys_updateIndex]
  by_cases hk : k' = k
  · subst hk
    rw [if_pos rfl, lookupList_updateSubkey]
    by_cases hs : s' = s <;> simp [hs]
  · simp [hk]

theorem tombstoneLive_cons (vOld vNew : Version) (sc : Subkey × VersionChain)
    (rest : List (Subkey × VersionChain)) :
    tombstoneLive vOld vNew (sc :: rest) =
      (if isLive vOld sc.2 then (sc.1, ⟨vNew, none⟩ :: sc.2) else sc) ::
        tombstoneLive vOld vNew rest := rfl

theorem lookupList_tombstoneLive (vOld vNew : Version)
    (l : List (Subkey × VersionChain)) (s : Subkey) :
    lookupList (tombstoneLive vOld vNew l) s =
      if isLive vOld (lookupList l s) then ⟨vNew, none⟩ :: lookupList l s
      else lookupList l s := by
  induction l with
  | nil => simp [tombstoneLive, lookupList, isLive_nil]
  | cons sc rest ih =>
    obtain ⟨s₁, c⟩ := sc
    rw [tombstoneLive_cons]
    by_cases hl : isLive vOld c
    · rw [if_pos hl]
      by_cases hs : s₁ = s
      · simp [lookupList, hs, hl]
      · simp [lookupList, hs, ih]
    · rw [if_neg hl]
      by_cases hs : s₁ = s
      · simp [lookupList, hs, hl]
      · simp [lookupList, hs, ih]

theorem deleteKeyIndex_cons (k : Key) (vOld vNew : Version)
    (ks : Key × List (Subkey × VersionChain)) (rest : IndexBlock) :
    deleteKeyIndex (ks :: rest) k vOld vNew =
      (if ks.1 = k then (ks.1, tombstoneLive vOld vNew ks.2) else ks) ::
        deleteKeyIndex rest k vOld vNew := rfl

theorem lookupSubkeys_deleteKeyIndex (idx : IndexBlock) (k : Key)
    (vOld vNew : Version) (k' : Key) :
    lookupSubkeys (deleteKeyIndex idx k vOld vNew) k' =
      if k' = k then tombstoneLive vOld vNew (lookupSubkeys idx k)
      else lookupSubkeys idx k' := by
  induction idx with
  | nil =>
    by_cases hk : k' = k <;> simp [deleteKeyIndex, lookupSubkeys, tombstoneLive, hk]
  | cons ks rest ih =>
    obtain ⟨k₁, l⟩ := ks
    rw [deleteKeyIndex_cons]
    by_cases h1 : k₁ = k
    · subst h1
      rw [if_pos rfl]
      by_cases hk : k' = k₁
      · simp [lookupSubkeys, hk]
      · simp [lookupSubkeys, hk, Ne.symm hk, ih]
    · rw [if_neg h1]
      by_cases hk : k' = k₁
      · subst hk
        simp [lookupSubkeys, h1, Ne.symm h1]
      · simp [lookupSubkeys, h1, hk, Ne.symm hk, ih]

theorem ChainExt.chain_refl (v : Version) (c : VersionChain) : ChainExt v c c :=
  ⟨[], by simp⟩

theorem SubsExt.subs_refl (v : Version) (l : List (Subkey × VersionChain)) : SubsExt v l l := by
  induction l with
  | nil => exact SubsExt.nil [] (by simp)
  | cons sc rest ih => exact SubsExt.cons sc.1 sc.2 sc.2 rest rest (ChainExt.chain_refl v sc.2) ih

theorem IdxExt.idx_refl (v : Version) (i : IndexBlock) : IdxExt v i i := by
  induction i with
  | nil => exact IdxExt.nil [] (by simp)
  | cons ks rest ih => exact IdxExt.cons ks.1 ks.2 ks.2 rest rest (SubsExt.subs_refl v ks.2) ih

theorem ChainExt.chain_mono {v v' : Version} {c c' : VersionChain}
    (hv : v' ≤ v) (h : ChainExt v c c') : ChainExt v' c c' := by
  obtain ⟨pre, hpre, hgt⟩ := h
  exact ⟨pre, hpre, fun e he => Nat.lt_of_le_of_lt hv (hgt e he)⟩

theorem SubsExt.subs_mono {v v' : Version} {l l' : List (Subkey × VersionChain)}
    (hv : v' ≤ v) (h : SubsExt v l l') : SubsExt v' l l' := by
  induction h with
  | nil l' hnew =>
    exact SubsExt.nil l' fun sc hsc e he => Nat.lt_of_le_of_lt hv (hnew sc hsc e he)
  | cons s c c' l l' hc hl ih =>
    exact SubsExt.cons s c c' l l' (hc.chain_mono hv) ih

theorem IdxExt.idx_mono {v v' : Version} {i i' : IndexBlock}
    (hv : v' ≤ v) (h : IdxExt v i i') : IdxExt v' i i' := by
  induction h with
  | nil i' hnew =>
    exact IdxExt.nil i' fun ks hks sc hsc e he => Nat.lt_of_le_of_lt hv (hnew ks hks sc hsc e he)
  | cons k l l' i i' hs hi ih =>
    exact IdxExt.cons k l l' i i' (hs.subs_mono hv) ih

theorem ChainExt.chain_all_gt {v : Version} {c c' : VersionChain}
    (h : ChainExt v c c') (hall : ∀ e ∈ c, v < e.version) :
    ∀ e ∈ c', v < e.version := by
  obtain ⟨pre, hpre, hgt⟩ := h
  subst hpre
  intro e he
  rcases List.mem_append.1 he with h | h
  · exact hgt e h
  · exact hall e h

theorem SubsExt.subs_all_gt {v : Version} {l l' : List (Subkey × VersionChain)}
    (h : SubsExt v l l') (hall : ∀ sc ∈ l, ∀ e ∈ sc.2, v < e.version) :
    ∀ sc ∈ l', ∀ e ∈ sc.2, v < e.version := by
  induction h with
  | nil l' hnew => exact hnew
  | cons s c c' l l' hc hl ih =>
    intro sc hsc
    rcases List.mem_cons.1 hsc with h | h
    · subst h
      exact hc.chain_all_gt (hall (s, c) (List.mem_cons_self _ _))
    · exact ih (fun sc' hsc' => hall sc' (List.mem_cons_of_mem _ hsc')) sc h

theorem IdxExt.idx_all_gt {v : Version} {i i' : IndexBlock}
    (h : IdxExt v i i') (hall : ∀ ks ∈ i, ∀ sc ∈ ks.2, ∀ e ∈ sc.2, v < e.version) :
    ∀ ks ∈ i', ∀ sc ∈ ks.2, ∀ e ∈ sc.2, v < e.version := by
  induction h with
  | nil i' hnew => exact hnew
  | cons k l l' i i' hs hi ih =>
    intro ks hks
    rcases List.mem_cons.1 hks with h | h
    · subst h
      exact hs.subs_all_gt (hall (k, l) (List.mem_cons_self _ _))
    · exact ih (fun ks' hks' => hall ks' (List.mem_cons_of_mem _ hks')) ks h

theorem ChainExt.chain_trans {v : Version} {c c' c'' : VersionChain}
    (h1 : ChainExt v c c') (h2 : ChainExt v c' c'') : ChainExt v c c'' := by
  obtain ⟨p1, hp1, hg1⟩ := h1
  obtain ⟨p2, hp2, hg2⟩ := h2
  refine ⟨p2 ++ p1, by rw [hp2, hp1, List.append_assoc], ?_⟩
  intro e he
  rcases List.mem_append.1 he with h | h
  · exact hg2 e h
  · exact hg1 e h

theorem SubsExt.subs_trans {v : Version} {l l' l'' : List (Subkey × VersionChain)}
    (h1 : SubsExt v l l') (h2 : SubsExt v l' l'') : SubsExt v l l'' := by
  induction h1 generalizing l'' with
  | nil l' hnew => exact SubsExt.nil l'' (h2.subs_all_gt hnew)
  | cons s c c' l l' hc hl ih =>
    cases h2 with
    | cons _ _ c'' _ l'' hc' hl' =>
      exact SubsExt.cons s c c'' l l'' (hc.chain_trans hc') (ih hl')

theorem IdxExt.idx_trans {v : Version} {i i' i'' : IndexBlock}
    (h1 : IdxExt v i i') (h2 : IdxExt v i' i'') : IdxExt v i i'' := by
  induction h1 generalizing i'' with
  | nil i' hnew => exact IdxExt.nil i'' (h2.idx_all_gt hnew)
  | cons k l l' i i' hs hi ih =>
    cases h2 with
    | cons _ _ l'' _ i'' hs' hi' =>
      exact IdxExt.cons k l l'' i i'' (hs.subs_trans hs') (ih hi')

/-! Snapshot observations are invariant under extension at pinned versions. -/

theorem ChainExt.resolve_eq {v : Version} {c c' : VersionChain}
    (h : ChainExt v c c') {v' : Version} (hv : v' ≤ v) :
    resolveChain c' v' = resolveChain c v' := by
  obtain ⟨pre, hpre, hgt⟩ := h
  subst hpre
  induction pre with
  | nil => rfl
  | cons e rest ih =>
    have he : v' < e.version :=
      Nat.lt_of_le_of_lt hv (hgt e (List.mem_cons_self _ _))
    simp only [List.cons_append, resolveChain, if_neg (Nat.not_le_of_lt he)]
    exact ih fun e' he' => hgt e' (List.mem_cons_of_mem _ he')

theorem SubsExt.lookupList_ext {v : Version} {l l' : List (Subkey × VersionChain)}
    (h : SubsExt v l l') (s : Subkey) :
    ChainExt v (lookupList l s) (lookupList l' s) := by
  induction h with
  | nil l' hnew =>
    rcases lookupList_eq l' s with h0 | h0
    · rw [h0]
      exact ChainExt.chain_refl v _
    · exact ⟨lookupList l' s, by simp [lookupList], fun e he => hnew _ h0 e he⟩
  | cons s₁ c c' l l' hc hl ih =>
    by_cases hs : s₁ = s
    · subst hs
      simpa [lookupList] using hc
    · simpa [lookupList, hs] using ih

theorem IdxExt.lookupSubkeys_ext {v : Version} {i i' : IndexBlock}
    (h : IdxExt v i i') (k : Key) :
    SubsExt v (lookupSubkeys i k) (lookupSubkeys i' k) := by
  induction h with
  | nil i' hnew =>
    rcases lookupSubkeys_eq i' k with h0 | h0
    · rw [h0]
      exact SubsExt.nil [] (by simp)
    · obtain ⟨ks, hks, hfst, heq⟩ := h0
      rw [heq]
      exact SubsExt.nil ks.2 (hnew ks hks)
  | cons k₁ l l' i i' hs hi ih =>
    by_cases hk : k₁ = k
    · subst hk
      simpa [lookupSubkeys] using hs
    · simpa [lookupSubkeys, hk] using ih

theorem IdxExt.lookupChain_ext {v : Version} {i i' : IndexBlock}
    (h : IdxExt v i i') (k : Key) (s : Subkey) :
    ChainExt v (lookupChain i k s) (lookupChain i' k s) :=
  (h.lookupSubkeys_ext k).lookupList_ext s

theorem ChainExt.isLive_eq {v : Version} {c c' : VersionChain}
    (h : ChainExt v c c') {v' : Version} (hv : v' ≤ v) :
    isLive v' c' = isLive v' c := by
  unfold isLive
  rw [h.resolve_eq hv]

theorem SubsExt.keyHasSubkeys_eq {v : Version} {l l' : List (Subkey × VersionChain)}
    (h : SubsExt v l l') {v' : Version} (hv : v' ≤ v) :
    keyHasSubkeys v' l' = keyHasSubkeys v' l := by
  induction h with
  | nil l' hnew =>
    have : ∀ sc ∈ l', isLive v' sc.2 = false := by
      intro sc hsc
      unfold isLive
      rw [resolveChain_all_gt fun e he => Nat.lt_of_le_of_lt hv (hnew sc hsc e he)]
      rfl
    simp only [keyHasSubkeys, List.any_nil]
    refine List.any_eq_false.2 ?_
    intro sc hsc
    simp [this sc hsc]
  | cons s c c' l l' hc hl ih =>
    simp only [keyHasSubkeys, List.any_cons] at ih ⊢
    rw [hc.isLive_eq hv, ih]

theorem SubsExt.presentSubkeysCount_eq {v : Version} {l l' : List (Subkey × VersionChain)}
    (h : SubsExt v l l') {v' : Version} (hv : v' ≤ v) :
    presentSubkeysCount v' l' = presentSubkeysCount v' l := by
  induction h with
  | nil l' hnew =>
    have : ∀ sc ∈ l', isLive v' sc.2 = false := by
      intro sc hsc
      unfold isLive
      rw [resolveChain_all_gt fun e he => Nat.lt_of_le_of_lt hv (hnew sc hsc e he)]
      rfl
    simp only [presentSubkeysCount]
    rw [List.countP_eq_zero.2 (by intro sc hsc; simp [this sc hsc])]
    rfl
  | cons s c c' l l' hc hl ih =>
    simp only [presentSubkeysCount, List.countP_cons] at ih ⊢
    rw [hc.isLive_eq hv, ih]

theorem SubsExt.subkeyList_eq {v : Version} {l l' : List (Subkey × VersionChain)}
    (h : SubsExt v l l') {v' : Version} (hv : v' ≤ v) :
    (l'.filterMap fun sc =>
        (toHandle (resolveChain sc.2 v')).map fun pv => (sc.1, pv)) =
      l.filterMap fun sc =>
        (toHandle (resolveChain sc.2 v')).map fun pv => (sc.1, pv) := by
  induction h with
  | nil l' hnew =>
    rw [List.filterMap_eq_nil_iff.2, List.filterMap_nil]
    intro sc hsc
    rw [resolveChain_all_gt fun e he => Nat.lt_of_le_of_lt hv (hnew sc hsc e he)]
    rfl
  | cons s c c' l l' hc hl ih =>
    simp only [List.filterMap_cons]
    rw [hc.resolve_eq hv, ih]

theorem IdxExt.presentKeys_eq {v : Version} {i i' : IndexBlock}
    (h : IdxExt v i i') {v' : Version} (hv : v' ≤ v) :
    ((i'.filter fun ks => keyHasSubkeys v' ks.2).map Prod.fst) =
      (i.filter fun ks => keyHasSubkeys v' ks.2).map Prod.fst := by
  induction h with
  | nil i' hnew =>
    rw [List.filter_eq_nil_iff.2, List.filter_nil]
    intro ks hks
    have hfalse : ∀ sc ∈ ks.2, isLive v' sc.2 = false := by
      intro sc hsc
      unfold isLive
      rw [resolveChain_all_gt fun e he => Nat.lt_of_le_of_lt hv (hnew ks hks sc hsc e he)]
      rfl
    intro hany
    simp only [keyHasSubkeys, List.any_eq_true] at hany
    obtain ⟨sc, hsc, hlive⟩ := hany
    rw [hfalse sc hsc] at hlive
    cases hlive
  | cons k l l' i i' hs hi ih =>
    simp only [List.filter_cons]
    rw [hs.keyHasSubkeys_eq hv]
    by_cases hp : keyHasSubkeys v' l
    · simp only [hp, if_pos]
      simp [ih]
    · simp only [hp]
      simp [ih]

/-! The mutation primitives produce extensions. -/

theorem chainExt_cons {v : Version} {c : VersionChain} {e : ChainEntry}
    (h : v < e.version) : ChainExt v c (e :: c) :=
  ⟨[e], rfl, by simpa using h⟩

theorem subsExt_updateSubkey {v : Version} (l : List (Subkey × VersionChain))
    (s : Subkey) (e : ChainEntry) (he : v < e.version) :
    SubsExt v l (updateSubkey l s e) := by
  induction l with
  | nil =>
    exact SubsExt.nil [(s, [e])] (by simpa [updateSubkey] using he)
  | cons sc rest ih =>
    obtain ⟨s₁, c⟩ := sc
    by_cases hs : s₁ = s
    · subst hs
      simp only [updateSubkey, if_pos rfl]
      exact SubsExt.cons s₁ c (e :: c) rest rest (chainExt_cons he) (SubsExt.subs_refl v rest)
    · simp only [updateSubkey, if_neg hs]
      exact SubsExt.cons s₁ c c rest _ (ChainExt.chain_refl v c) ih

theorem idxExt_updateIndex {v : Version} (idx : IndexBlock) (k : Key)
    (s : Subkey) (e : ChainEntry) (he : v < e.version) :
    IdxExt v idx (updateIndex idx k s e) := by
  induction idx with
  | nil =>
    exact IdxExt.nil [(k, [(s, [e])])] (by simpa [updateIndex] using he)
  | cons ks rest ih =>
    obtain ⟨k₁, l⟩ := ks
    by_cases hk : k₁ = k
    · subst hk
      simp only [updateIndex, if_pos rfl]
      exact IdxExt.cons k₁ l _ rest rest (subsExt_updateSubkey l s e he) (IdxExt.idx_refl v rest)
    · simp only [updateIndex, if_neg hk]
      exact IdxExt.cons k₁ l l rest _ (SubsExt.subs_refl v l) ih

theorem subsExt_tombstoneLive {v vOld vNew : Version}
    (l : List (Subkey × VersionChain)) (h : v < vNew) :
    SubsExt v l (tombstoneLive vOld vNew l) := by
  induction l with
  | nil => exact SubsExt.nil [] (by simp [tombstoneLive])
  | cons sc rest ih =>
    obtain ⟨s₁, c⟩ := sc
    rw [tombstoneLive_cons]
    by_cases hl : isLive vOld c
    · rw [if_pos hl]
      exact SubsExt.cons s₁ c _ rest _ (chainExt_cons h) ih
    · rw [if_neg hl]
      exact SubsExt.cons s₁ c c rest _ (ChainExt.chain_refl v c) ih

theorem idxExt_deleteKeyIndex {v vOld vNew : Version} (idx : IndexBlock)
    (k : Key) (h : v < vNew) :
    IdxExt v idx (deleteKeyIndex idx k vOld vNew) := by
  induction idx with
  | nil => exact IdxExt.nil [] (by simp [deleteKeyIndex])
  | cons ks rest ih =>
    obtain ⟨k₁, l⟩ := ks
    rw [deleteKeyIndex_cons]
    by_cases hk : k₁ = k
    · rw [if_pos hk]
      exact IdxExt.cons k₁ l _ rest _ (subsExt_tombstoneLive l h) ih
    · rw [if_neg hk]
      exact IdxExt.cons k₁ l l rest _ (SubsExt.subs_refl v l) ih

theorem applyOp_currentVersion (σ : Storage) (op : Op) :
    (applyOp σ op).currentVersion = σ.currentVersion + 1 := by
  cases op <;> rfl

theorem idxExt_applyOp (σ : Storage) (op : Op) :
    IdxExt σ.currentVersion σ.index (applyOp σ op).index := by
  cases op with
  | put k s p => exact idxExt_updateIndex σ.index k s _ (Nat.lt_succ_self _)
  | del k s => exact idxExt_updateIndex σ.index k s _ (Nat.lt_succ_self _)
  | delKey k => exact idxExt_deleteKeyIndex σ.index k (Nat.lt_succ_self _)

theorem applyOps_version_le (σ : Storage) (ops : List Op) :
    σ.currentVersion ≤ (applyOps σ ops).currentVersion := by
  induction ops generalizing σ with
  | nil => exact Nat.le_refl _
  | cons op rest ih =>
    have h1 : σ.currentVersion ≤ (applyOp σ op).currentVersion := by
      rw [applyOp_currentVersion]
      exact Nat.le_succ _
    exact Nat.le_trans h1 (ih (applyOp σ op))

theorem idxExt_applyOps (σ : Storage) (ops : List Op) :
    IdxExt σ.currentVersion σ.index (applyOps σ ops).index := by
  induction ops generalizing σ with
  | nil => exact IdxExt.idx_refl _ _
  | cons op rest ih =>
    refine (idxExt_applyOp σ op).idx_trans ?_
    refine IdxExt.idx_mono ?_ (ih (applyOp σ op))
    rw [applyOp_currentVersion]
    exact Nat.le_succ _

/-! Well-formedness is preserved by mutation. -/

theorem chainWF_mono {v v' : Version} {c : VersionChain}
    (h : chainWF v c) (hv : v ≤ v') : chainWF v' c :=
  ⟨h.1, fun e he => ⟨(h.2 e he).1, Nat.le_trans (h.2 e he).2 hv⟩⟩

theorem chainWF_cons {v : Version} {c : VersionChain} {e : ChainEntry}
    (h : chainWF v c) (he : e.version = v + 1) : chainWF (v + 1) (e :: c) := by
  constructor
  · refine List.pairwise_cons.2 ⟨?_, h.1⟩
    intro e' he'
    rw [he]
    exact Nat.lt_succ_of_le (h.2 e' he').2
  · intro e' he'
    rcases List.mem_cons.1 he' with h0 | h0
    · subst h0
      rw [he]
      exact ⟨Nat.le_add_left 1 v, Nat.le_refl _⟩
    · exact ⟨(h.2 e' h0).1, Nat.le_succ_of_le (h.2 e' h0).2⟩

theorem chainWF_nil (v : Version) : chainWF v [] :=
  ⟨List.Pairwise.nil, by simp⟩

theorem chainWF_singleton {v : Version} {e : ChainEntry}
    (he : e.version = v + 1) : chainWF (v + 1) [e] :=
  chainWF_cons (chainWF_nil v) he

theorem map_fst_updateSubkey (l : List (Subkey × VersionChain))
    (s : Subkey) (e : ChainEntry) :
    (updateSubkey l s e).map Prod.fst =
      if s ∈ l.map Prod.fst then l.map Prod.fst else l.map Prod.fst ++ [s] := by
  induction l with
  | nil => simp [updateSubkey]
  | cons sc rest ih =>
    obtain ⟨s₁, c⟩ := sc
    by_cases hs : s₁ = s
    · subst hs
      simp [updateSubkey]
    · simp only [updateSubkey, if_neg hs, List.map_cons, ih]
      have hne : ¬s = s₁ := Ne.symm hs
      by_cases hmem : s ∈ rest.map Prod.fst
      · simp [hmem, hne]
      · simp [hmem, hne]

theorem map_fst_updateIndex (idx : IndexBlock) (k : Key)
    (s : Subkey) (e : ChainEntry) :
    (updateIndex idx k s e).map Prod.fst =
      if k ∈ idx.map Prod.fst then idx.map Prod.fst else idx.map Prod.fst ++ [k] := by
  induction idx with
  | nil => simp [updateIndex]
  | cons ks rest ih =>
    obtain ⟨k₁, l⟩ := ks
    by_cases hk : k₁ = k
    · subst hk
      simp [updateIndex]
    · simp only [updateIndex, if_neg hk, List.map_cons, ih]
      have hne : ¬k = k₁ := Ne.symm hk
      by_cases hmem : k ∈ rest.map Prod.fst
      · simp [hmem, hne]
      · simp [hmem, hne]

theorem nodup_append_singleton {α : Type} {l : List α} {a : α}
    (h : l.Nodup) (ha : a ∉ l) : (l ++ [a]).Nodup := by
  refine List.nodup_append.2 ⟨h, List.nodup_singleton a, ?_⟩
  intro x hx hx'
  rw [List.mem_singleton] at hx'
  subst hx'
  exact ha hx

theorem nodup_map_fst_updateSubkey {l : List (Subkey × VersionChain)}
    {s : Subkey} {e : ChainEntry} (h : (l.map Prod.fst).Nodup) :
    ((updateSubkey l s e).map Prod.fst).Nodup := by
  rw [map_fst_updateSubkey]
  by_cases hmem : s ∈ l.map Prod.fst
  · rwa [if_pos hmem]
  · rw [if_neg hmem]
    exact nodup_append_singleton h hmem

theorem nodup_map_fst_updateIndex {idx : IndexBlock}
    {k : Key} {s : Subkey} {e : ChainEntry} (h : (idx.map Prod.fst).Nodup) :
    ((updateIndex idx k s e).map Prod.fst).Nodup := by
  rw [map_fst_updateIndex]
  by_cases hmem : k ∈ idx.map Prod.fst
  · rwa [if_pos hmem]
  · rw [if_neg hmem]
    exact nodup_append_singleton h hmem

theorem map_fst_tombstoneLive (vOld vNew : Version)
    (l : List (Subkey × VersionChain)) :
    (tombstoneLive vOld vNew l).map Prod.fst = l.map Prod.fst := by
  induction l with
  | nil => rfl
  | cons sc rest ih =>
    rw [tombstoneLive_cons]
    by_cases hl : isLive vOld sc.2
    · simp [if_pos hl, ih]
    · simp [if_neg hl, ih]

theorem map_fst_deleteKeyIndex (idx : IndexBlock) (k : Key) (vOld vNew : Version) :
    (deleteKeyIndex idx k vOld vNew).map Prod.fst = idx.map Prod.fst := by
  induction idx with
  | nil => rfl
  | cons ks rest ih =>
    rw [deleteKeyIndex_cons]
    by_cases hk : ks.1 = k
    · simp [if_pos hk, ih]
    · simp [if_neg hk, ih]

theorem mem_updateSubkey {l : List (Subkey × VersionChain)}
    {s : Subkey} {e : ChainEntry} {sc' : Subkey × VersionChain}
    (h : sc' ∈ updateSubkey l s e) :
    sc' ∈ l ∨ sc' = (s, e :: lookupList l s) ∨ sc' = (s, [e]) := by
  induction l with
  | nil =>
    simp only [updateSubkey, List.mem_singleton] at h
    exact Or.inr (Or.inr h)
  | cons sc rest ih =>
    obtain ⟨s₁, c⟩ := sc
    by_cases hs : s₁ = s
    · subst hs
      simp only [updateSubkey, if_pos rfl] at h
      rcases List.mem_cons.1 h with h0 | h0
      · refine Or.inr (Or.inl ?_)
        rw [h0]
        simp [lookupList]
      · exact Or.inl (List.mem_cons.2 (Or.inr h0))
    · simp only [updateSubkey, if_neg hs] at h
      rcases List.mem_cons.1 h with h0 | h0
      · exact Or.inl (List.mem_cons.2 (Or.inl h0))
      · rcases ih h0 with h1 | h1 | h1
        · exact Or.inl (List.mem_cons.2 (Or.inr h1))
        · refine Or.inr (Or.inl ?_)
          rw [h1]
          simp [lookupList, hs]
        · exact Or.inr (Or.inr h1)

theorem mem_updateIndex {idx : IndexBlock}
    {k : Key} {s : Subkey} {e : ChainEntry} {ks' : Key × List (Subkey × VersionChain)}
    (h : ks' ∈ updateIndex idx k s e) :
    ks' ∈ idx ∨ ks' = (k, updateSubkey (lookupSubkeys idx k) s e) := by
  induction idx with
  | nil =>
    simp only [updateIndex, List.mem_singleton] at h
    exact Or.inr h
  | cons ks rest ih =>
    obtain ⟨k₁, l⟩ := ks
    by_cases hk : k₁ = k
    · subst hk
      simp only [updateIndex, if_pos rfl] at h
      rcases List.mem_cons.1 h with h0 | h0
      · refine Or.inr ?_
        rw [h0]
        simp [lookupSubkeys]
      · exact Or.inl (List.mem_cons.2 (Or.inr h0))
    · simp only [updateIndex, if_neg hk] at h
      rcases List.mem_cons.1 h with h0 | h0
      · exact Or.inl (List.mem_cons.2 (Or.inl h0))
      · rcases ih h0 with h1 | h1
        · exact Or.inl (List.mem_cons.2 (Or.inr h1))
        · refine Or.inr ?_
          rw [h1]
          simp [lookupSubkeys, hk]

theorem mem_tombstoneLive {vOld vNew : Version}
    {l : List (Subkey × VersionChain)} {sc' : Subkey × VersionChain}
    (h : sc' ∈ tombstoneLive vOld vNew l) :
    ∃ sc ∈ l, sc' = sc ∨ sc' = (sc.1, ⟨vNew, none⟩ :: sc.2) := by
  obtain ⟨sc, hsc, heq⟩ := List.mem_map.1 h
  refine ⟨sc, hsc, ?_⟩
  by_cases hl : isLive vOld sc.2
  · rw [if_pos hl] at heq
    exact Or.inr heq.symm
  · rw [if_neg hl] at heq
    exact Or.inl heq.symm

theorem mem_deleteKeyIndex {idx : IndexBlock} {k : Key} {vOld vNew : Version}
    {ks' : Key × List (Subkey × VersionChain)}
    (h : ks' ∈ deleteKeyIndex idx k vOld vNew) :
    ∃ ks ∈ idx, ks' = ks ∨ ks' = (ks.1, tombstoneLive vOld vNew ks.2) := by
  obtain ⟨ks, hks, heq⟩ := List.mem_map.1 h
  refine ⟨ks, hks, ?_⟩
  by_cases hk : ks.1 = k
  · rw [if_pos hk] at heq
    exact Or.inr heq.symm
  · rw [if_neg hk] at heq
    exact Or.inl heq.symm

/-- The subkey list stored for any key in a well-formed storage is
unduplicated and holds well-formed chains. -/
theorem lookupSubkeys_wf {σ : Storage} (h : StorageWF σ) (k : Key) :
    ((lookupSubkeys σ.index k).map Prod.fst).Nodup ∧
      ∀ sc ∈ lookupSubkeys σ.index k, chainWF σ.currentVersion sc.2 := by
  rcases lookupSubkeys_eq σ.index k with h0 | ⟨ks, hks, hfst, heq⟩
  · rw [h0]
    exact ⟨List.nodup_nil, by simp⟩
  · rw [heq]
    exact ⟨(h.2.2 ks hks).1, (h.2.2 ks hks).2⟩

/-- The chain stored for any (k, s) in a well-formed storage is well-formed. -/
theorem lookupChain_wf {σ : Storage} (h : StorageWF σ) (k : Key) (s : Subkey) :
    chainWF σ.currentVersion (lookupChain σ.index k s) := by
  unfold lookupChain
  rcases lookupList_eq (lookupSubkeys σ.index k) s with h1 | h1
  · rw [h1]
    exact chainWF_nil _
  · exact (lookupSubkeys_wf h k).2 _ h1

theorem updateIndex_WF {σ : Storage} (h : StorageWF σ) (k : Key) (s : Subkey)
    {e : ChainEntry} (he : e.version = σ.currentVersion + 1) :
    StorageWF ⟨σ.currentVersion + 1, updateIndex σ.index k s e⟩ := by
  obtain ⟨hver, hnd, hks⟩ := h
  refine ⟨Nat.le_succ_of_le hver, nodup_map_fst_updateIndex hnd, ?_⟩
  intro ks' hks'
  rcases mem_updateIndex hks' with h0 | h0
  · exact ⟨(hks ks' h0).1, fun sc hsc => chainWF_mono ((hks ks' h0).2 sc hsc) (Nat.le_succ _)⟩
  · subst h0
    have hsub := lookupSubkeys_wf ⟨hver, hnd, hks⟩ k
    refine ⟨nodup_map_fst_updateSubkey hsub.1, ?_⟩
    intro sc hsc
    rcases mem_updateSubkey hsc with h1 | h1 | h1
    · exact chainWF_mono (hsub.2 sc h1) (Nat.le_succ _)
    · rw [h1]
      refine chainWF_cons ?_ he
      rcases lookupList_eq (lookupSubkeys σ.index k) s with h2 | h2
      · rw [h2]
        exact chainWF_nil _
      · exact hsub.2 _ h2
    · rw [h1]
      exact chainWF_cons (chainWF_nil _) he

theorem applyOp_WF {σ : Storage} (h : StorageWF σ) (op : Op) :
    StorageWF (applyOp σ op) := by
  cases op with
  | put k s p => exact updateIndex_WF h k s rfl
  | del k s => exact updateIndex_WF h k s rfl
  | delKey k =>
    obtain ⟨hver, hnd, hks⟩ := h
    refine ⟨Nat.le_succ_of_le hver, ?_, ?_⟩
    · rw [show (applyOp σ (Op.delKey k)).index =
          deleteKeyIndex σ.index k σ.currentVersion (σ.currentVersion + 1) from rfl,
        map_fst_deleteKeyIndex]
      exact hnd
    · intro ks' hks'
      obtain ⟨ks, hmem, hcase⟩ := mem_deleteKeyIndex hks'
      rcases hcase with h0 | h0
      · rw [h0]
        exact ⟨(hks ks hmem).1, fun sc hsc =>
          chainWF_mono ((hks ks hmem).2 sc hsc) (Nat.le_succ _)⟩
      · rw [h0]
        refine ⟨by rw [map_fst_tombstoneLive]; exact (hks ks hmem).1, ?_⟩
        intro sc hsc
        obtain ⟨sc₀, hsc₀, hcase₀⟩ := mem_tombstoneLive hsc
        rcases hcase₀ with h1 | h1
        · rw [h1]
          exact chainWF_mono ((hks ks hmem).2 sc₀ hsc₀) (Nat.le_succ _)
        · rw [h1]
          exact chainWF_cons ((hks ks hmem).2 sc₀ hsc₀) rfl

theorem applyOps_WF {σ : Storage} (h : StorageWF σ) (ops : List Op) :
    StorageWF (applyOps σ ops) := by
  induction ops generalizing σ with
  | nil => exact h
  | cons op rest ih => exact ih (applyOp_WF h op)

/-! Assigned versions. -/

theorem mem_assignedVersions {σ : Storage} {w : Version} :
    w ∈ assignedVersions σ ↔
      ∃ ks ∈ σ.index, ∃ sc ∈ ks.2, ∃ e ∈ sc.2, e.version = w := by
  simp [assignedVersions, List.mem_flatMap, List.mem_map]

theorem assignedVersions_bound {σ : Storage} (h : StorageWF σ) :
    ∀ w ∈ assignedVersions σ, 1 ≤ w ∧ w ≤ σ.currentVersion := by
  intro w hw
  obtain ⟨ks, hks, sc, hsc, e, he, hev⟩ := mem_assignedVersions.1 hw
  rw [← hev]
  exact ((h.2.2 ks hks).2 sc hsc).2 e he

theorem fresh_not_assigned {σ : Storage} (h : StorageWF σ) :
    σ.currentVersion + 1 ∉ assignedVersions σ := by
  intro hmem
  have := (assignedVersions_bound h _ hmem).2
  exact Nat.not_succ_le_self _ this

theorem mem_lookupSubkeys_of_mem {idx : IndexBlock} {k : Key}
    {sc : Subkey × VersionChain} (h : sc ∈ lookupSubkeys idx k) :
    ∃ ks ∈ idx, sc ∈ ks.2 := by
  rcases lookupSubkeys_eq idx k with h0 | ⟨ks, hks, hfst, heq⟩
  · rw [h0] at h
    cases h
  · rw [heq] at h
    exact ⟨ks, hks, h⟩

theorem mem_lookupList_of_mem {l : List (Subkey × VersionChain)} {s : Subkey}
    {e : ChainEntry} (h : e ∈ lookupList l s) : ∃ sc ∈ l, e ∈ sc.2 := by
  rcases lookupList_eq l s with h0 | h0
  · rw [h0] at h
    cases h
  · exact ⟨(s, lookupList l s), h0, h⟩

theorem assignedVersions_applyOp {σ : Storage} (op : Op) :
    ∀ w ∈ assignedVersions (applyOp σ op),
      w ∈ assignedVersions σ ∨ w = σ.currentVersion + 1 := by
  intro w hw
  obtain ⟨ks', hks', sc, hsc, e, he, hev⟩ := mem_assignedVersions.1 hw
  subst hev
  cases op with
  | put k s p =>
    rcases mem_updateIndex hks' with h0 | h0
    · exact Or.inl (mem_assignedVersions.2 ⟨ks', h0, sc, hsc, e, he, rfl⟩)
    · rw [h0] at hsc
      rcases mem_updateSubkey hsc with h1 | h1 | h1
      · obtain ⟨ks, hks, hsc'⟩ := mem_lookupSubkeys_of_mem h1
        exact Or.inl (mem_assignedVersions.2 ⟨ks, hks, sc, hsc', e, he, rfl⟩)
      · rw [h1] at he
        rcases List.mem_cons.1 he with h2 | h2
        · exact Or.inr (by rw [h2])
        · obtain ⟨sc₀, hsc₀, he'⟩ := mem_lookupList_of_mem h2
          obtain ⟨ks, hks, hsc'⟩ := mem_lookupSubkeys_of_mem hsc₀
          exact Or.inl (mem_assignedVersions.2 ⟨ks, hks, sc₀, hsc', e, he', rfl⟩)
      · rw [h1] at he
        rcases List.mem_singleton.1 he with h2
        exact Or.inr (by rw [h2])
  | del k s =>
    rcases mem_updateIndex hks' with h0 | h0
    · exact Or.inl (mem_assignedVersions.2 ⟨ks', h0, sc, hsc, e, he, rfl⟩)
    · rw [h0] at hsc
      rcases mem_updateSubkey hsc with h1 | h1 | h1
      · obtain ⟨ks, hks, hsc'⟩ := mem_lookupSubkeys_of_mem h1
        exact Or.inl (mem_assignedVersions.2 ⟨ks, hks, sc, hsc', e, he, rfl⟩)
      · rw [h1] at he
        rcases List.mem_cons.1 he with h2 | h2
        · exact Or.inr (by rw [h2])
        · obtain ⟨sc₀, hsc₀, he'⟩ := mem_lookupList_of_mem h2
          obtain ⟨ks, hks, hsc'⟩ := mem_lookupSubkeys_of_mem hsc₀
          exact Or.inl (mem_assignedVersions.2 ⟨ks, hks, sc₀, hsc', e, he', rfl⟩)
      · rw [h1] at he
        rcases List.mem_singleton.1 he with h2
        exact Or.inr (by rw [h2])
  | delKey k =>
    obtain ⟨ks, hks, hcase⟩ := mem_deleteKeyIndex hks'
    rcases hcase with h0 | h0
    · rw [h0] at hsc
      exact Or.inl (mem_assignedVersions.2 ⟨ks, hks, sc, hsc, e, he, rfl⟩)
    · rw [h0] at hsc
      obtain ⟨sc₀, hsc₀, hcase₀⟩ := mem_tombstoneLive hsc
      rcases hcase₀ with h1 | h1
      · rw [h1] at he
        exact Or.inl (mem_assignedVersions.2 ⟨ks, hks, sc₀, hsc₀, e, he, rfl⟩)
      · rw [h1] at he
        rcases List.mem_cons.1 he with h2 | h2
        · exact Or.inr (by rw [h2])
        · exact Or.inl (mem_assignedVersions.2 ⟨ks, hks, sc₀, hsc₀, e, h2, rfl⟩)

/-! Counting subkeys versus enumerating them. -/

theorem length_getSubkeys_list (v : Version) (l : List (Subkey × VersionChain)) :
    (l.filterMap fun sc =>
        (toHandle (resolveChain sc.2 v)).map fun pv => (sc.1, pv)).length
      = presentSubkeysCount v l := by
  induction l with
  | nil => rfl
  | cons sc rest ih =>
    simp only [List.filterMap_cons, presentSubkeysCount, List.countP_cons] at ih ⊢
    cases hh : toHandle (resolveChain sc.2 v) with
    | none => simp [isLive, hh, ih]
    | some pv => simp [isLive, hh, ih]

/-! Sorted chains resolve to the latest entry at or before the version. -/

theorem resolveChain_eq_latest {c : VersionChain} {v : Version} {e : ChainEntry}
    (hs : List.Pairwise (fun a b => b.version < a.version) c)
    (hmem : e ∈ c) (hev : e.version ≤ v)
    (hmax : ∀ e' ∈ c, e'.version ≤ v → e'.version ≤ e.version) :
    resolveChain c v = some e := by
  induction c with
  | nil => cases hmem
  | cons e₀ rest ih =>
    obtain ⟨hlt, hrest⟩ := List.pairwise_cons.1 hs
    by_cases h0 : e₀.version ≤ v
    · have he : e = e₀ := by
        rcases List.mem_cons.1 hmem with h | h
        · exact h
        · exfalso
          have h1 : e.version < e₀.version := hlt e h
          have h2 : e₀.version ≤ e.version := hmax e₀ (List.mem_cons_self _ _) h0
          exact Nat.lt_irrefl _ (Nat.lt_of_lt_of_le h1 h2)
      rw [resolveChain, if_pos h0, he]
    · rw [resolveChain, if_neg h0]
      have hmem' : e ∈ rest := by
        rcases List.mem_cons.1 hmem with h | h
        · exact absurd (h ▸ hev) h0
        · exact h
      exact ih hrest hmem' fun e' he' hv' => hmax e' (List.mem_cons_of_mem _ he') hv'

/-! A key has subkeys at a version exactly when some subkey resolves. -/

theorem keyHasSubkeys_iff_exists {l : List (Subkey × VersionChain)} {v : Version}
    (hnd : (l.map Prod.fst).Nodup) :
    keyHasSubkeys v l = true ↔ ∃ s, isLive v (lookupList l s) = true := by
  constructor
  · intro h
    obtain ⟨sc, hsc, hlive⟩ := List.any_eq_true.1 h
    refine ⟨sc.1, ?_⟩
    rw [lookupList_of_nodup hnd (show (sc.1, sc.2) ∈ l by simpa using hsc)]
    exact hlive
  · rintro ⟨s, hlive⟩
    rcases lookupList_eq l s with h0 | h0
    · rw [h0, isLive_nil] at hlive
      cases hlive
    · exact List.any_eq_true.2 ⟨(s, lookupList l s), h0, hlive⟩

/-! Observations through a pinned snapshot are unchanged by later calls. -/

theorem snapshotGet_applyOps (σ : Storage) (ops : List Op) (snap : Snapshot)
    (hv : snap.version ≤ σ.currentVersion) (k : Key) (s : Subkey) :
    snapshotGet (applyOps σ ops) snap k s = snapshotGet σ snap k s := by
  unfold snapshotGet
  by_cases hb : snap.hasBlock
  · rw [if_pos hb, if_pos hb, ((idxExt_applyOps σ ops).lookupChain_ext k s).resolve_eq hv]
  · rw [if_neg hb, if_neg hb]

theorem snapshotKeys_applyOps (σ : Storage) (ops : List Op) (snap : Snapshot)
    (hv : snap.version ≤ σ.currentVersion) :
    snapshotKeys (applyOps σ ops) snap = snapshotKeys σ snap := by
  unfold snapshotKeys
  by_cases hb : snap.hasBlock
  · rw [if_pos hb, if_pos hb]
    exact (idxExt_applyOps σ ops).presentKeys_eq hv
  · rw [if_neg hb, if_neg hb]

theorem snapshotGetKey_applyOps (σ : Storage) (ops : List Op) (snap : Snapshot)
    (hv : snap.version ≤ σ.currentVersion) (k : Key) :
    (snapshotGetKey (applyOps σ ops) snap k).map (getSubkeys snap)
      = (snapshotGetKey σ snap k).map (getSubkeys snap) := by
  unfold snapshotGetKey
  by_cases hb : snap.hasBlock
  · rw [if_pos hb, if_pos hb]
    have hsub := (idxExt_applyOps σ ops).lookupSubkeys_ext k
    rw [hsub.keyHasSubkeys_eq hv]
    by_cases hp : keyHasSubkeys snap.version (lookupSubkeys σ.index k)
    · rw [if_pos hp, if_pos hp]
      simp only [Option.map_some']
      congr 1
      unfold getSubkeys
      exact hsub.subkeyList_eq hv
    · rw [if_neg hp, if_neg hp]
  · rw [if_neg hb, if_neg hb]

theorem getSubkeysCount_applyOps (σ : Storage) (ops : List Op) (snap : Snapshot)
    (hv : snap.version ≤ σ.currentVersion) (k : Key) :
    getSubkeysCount (applyOps σ ops) snap k = getSubkeysCount σ snap k := by
  unfold getSubkeysCount snapshotGetKey
  by_cases hb : snap.hasBlock
  · rw [if_pos hb, if_pos hb]
    have hsub := (idxExt_applyOps σ ops).lookupSubkeys_ext k
    rw [hsub.keyHasSubkeys_eq hv]
    by_cases hp : keyHasSubkeys snap.version (lookupSubkeys σ.index k)
    · rw [if_pos hp, if_pos hp]
      show presentSubkeysCount snap.version (lookupSubkeys (applyOps σ ops).index k)
        = presentSubkeysCount snap.version (lookupSubkeys σ.index k)
      exact hsub.presentSubkeysCount_eq hv
    · rw [if_neg hp, if_neg hp]
  · rw [if_neg hb, if_neg hb]

/-- Claim C1: snapshot isolation — for every snapshot taken from a storage
state and any sequence of Put/Delete calls performed afterwards, `Get` on a
subkey, `Get` on a key (with the subkeys it enumerates), `GetSubkeysCount`
and key iteration through that snapshot all return exactly what they
returned before the mutations; later mutations are never visible through
the snapshot. -/
theorem snapshot_isolation (σ : Storage) (ops : List Op) (k : Key) (s : Subkey) :
    snapshotGet (applyOps σ ops) (takeSnapshot σ).1 k s
        = snapshotGet σ (takeSnapshot σ).1 k s ∧
    snapshotKeys (applyOps σ ops) (takeSnapshot σ).1
        = snapshotKeys σ (takeSnapshot σ).1 ∧
    (snapshotGetKey (applyOps σ ops) (takeSnapshot σ).1 k).map
          (getSubkeys (takeSnapshot σ).1)
        = (snapshotGetKey σ (takeSnapshot σ).1 k).map (getSubkeys (takeSnapshot σ).1) ∧
    getSubkeysCount (applyOps σ ops) (takeSnapshot σ).1 k
        = getSubkeysCount σ (takeSnapshot σ).1 k :=
  ⟨snapshotGet_applyOps σ ops _ (Nat.le_refl _) k s,
   snapshotKeys_applyOps σ ops _ (Nat.le_refl _),
   snapshotGetKey_applyOps σ ops _ (Nat.le_refl _) k,
   getSubkeysCount_applyOps σ ops _ (Nat.le_refl _) k⟩

/-- Claim C2: version-chain resolution — for every key, subkey and snapshot
version, `Snapshot::Get(key, subkey)` returns the handle of the latest chain
entry for (key, subkey) whose assigned version is at most the snapshot's
version (which is empty when that entry is a tombstone), and the empty
handle when no entry that old exists. -/
theorem get_resolves_latest (σ : Storage) (snap : Snapshot) (k : Key) (s : Subkey)
    (hWF : StorageWF σ) (hb : snap.hasBlock = true) :
    (∀ e, latestAtMost (lookupChain σ.index k s) snap.version e →
        snapshotGet σ snap k s = toHandle (some e)) ∧
    ((∀ e ∈ lookupChain σ.index k s, snap.version < e.version) →
        snapshotGet σ snap k s = none) := by
  constructor
  · intro e he
    obtain ⟨hmem, hev, hmax⟩ := he
    unfold snapshotGet
    rw [if_pos hb, resolveChain_eq_latest (lookupChain_wf hWF k s).1 hmem hev hmax]
  · intro hall
    unfold snapshotGet
    rw [if_pos hb, resolveChain_all_gt hall]
    rfl

/-- Witness for C2 on a concrete storage: the key written at version 2 is
the latest entry at or before the snapshot version and is returned. -/
theorem get_resolves_latest_witness :
    snapshotGet (applyOps Storage.empty [Op.put 0 0 5])
        (takeSnapshot (applyOps Storage.empty [Op.put 0 0 5])).1 0 0
      = toHandle (some ⟨2, some 5⟩) :=
  (get_resolves_latest (applyOps Storage.empty [Op.put 0 0 5])
      (takeSnapshot (applyOps Storage.empty [Op.put 0 0 5])).1 0 0
      (by decide) rfl).1 ⟨2, some 5⟩ (by decide)

/-- Claim C3: key presence — `Snapshot::Get(key)` returns a non-empty
optional KeyView exactly when at least one subkey of the key resolves to a
non-tombstone entry at the snapshot's version. -/
theorem key_presence (σ : Storage) (snap : Snapshot) (k : Key)
    (hWF : StorageWF σ) (hb : snap.hasBlock = true) :
    (snapshotGetKey σ snap k).isSome = true ↔
      ∃ s, (snapshotGet σ snap k s).isSome = true := by
  simp only [snapshotGetKey, snapshotGet, hb, if_true]
  by_cases hp : keyHasSubkeys snap.version (lookupSubkeys σ.index k)
  · simp only [if_pos hp, Option.isSome_some, true_iff]
    obtain ⟨s, hs⟩ := (keyHasSubkeys_iff_exists (lookupSubkeys_wf hWF k).1).1 hp
    exact ⟨s, hs⟩
  · simp only [if_neg hp, Option.isSome_none]
    constructor
    · intro h
      exact absurd h Bool.false_ne_true
    · rintro ⟨s, hs⟩
      exact absurd ((keyHasSubkeys_iff_exists (lookupSubkeys_wf hWF k).1).2 ⟨s, hs⟩) hp

/-- Witness for C3 on a concrete storage: key 7 is present because subkey 1
resolves. -/
theorem key_presence_witness :
    (snapshotGetKey (applyOps Storage.empty [Op.put 7 1 10])
        (takeSnapshot (applyOps Storage.empty [Op.put 7 1 10])).1 7).isSome = true :=
  (key_presence (applyOps Storage.empty [Op.put 7 1 10])
      (takeSnapshot (applyOps Storage.empty [Op.put 7 1 10])).1 7
      (by decide) rfl).2 ⟨1, by decide⟩

/-- Claim C4: version monotonicity — `TakeSnapshot` leaves the storage
untouched and any number of consecutive calls return the same version;
every mutating call advances the counter by exactly one; in a well-formed
state every assigned version lies in [1, current], the next version to be
assigned was never assigned before, and a mutation only adds that fresh
version, so no version number is ever assigned twice. -/
theorem version_monotonicity (σ : Storage) (op : Op) (n : Nat) (hWF : StorageWF σ) :
    ((takeSnapshots n σ).2 = σ ∧
      ∀ snap ∈ (takeSnapshots n σ).1, snap.version = σ.currentVersion) ∧
    (applyOp σ op).currentVersion = σ.currentVersion + 1 ∧
    (∀ w ∈ assignedVersions σ, 1 ≤ w ∧ w ≤ σ.currentVersion) ∧
    σ.currentVersion + 1 ∉ assignedVersions σ ∧
    (∀ w ∈ assignedVersions (applyOp σ op),
        w ∈ assignedVersions σ ∨ w = σ.currentVersion + 1) := by
  refine ⟨?_, applyOp_currentVersion σ op, assignedVersions_bound hWF,
    fresh_not_assigned hWF, assignedVersions_applyOp op⟩
  induction n with
  | zero => exact ⟨rfl, by simp [takeSnapshots]⟩
  | succ m ih =>
    refine ⟨ih.1, ?_⟩
    intro snap hsnap
    rcases List.mem_cons.1 hsnap with h | h
    · rw [h]
      rfl
    · exact ih.2 snap h

/-- Witness for C4 on a concrete storage. -/
theorem version_monotonicity_witness :
    (applyOp Storage.empty (Op.put 0 0 5)).currentVersion = 2 :=
  (version_monotonicity Storage.empty (Op.put 0 0 5) 3 (by decide)).2.1

/-- Claim C5: whole-key delete atomicity — `Delete(key)` tombstones every
live subkey of the key at the one shared next version: a snapshot taken
right after the delete finds no subkey of the key at all, while any
snapshot pinned at or before the pre-delete version observes every subkey
exactly as before the delete; no snapshot can see the key partially
deleted. -/
theorem delete_key_atomic (σ : Storage) (k : Key) (hWF : StorageWF σ) :
    (∀ s, snapshotGet (applyOp σ (Op.delKey k))
        (takeSnapshot (applyOp σ (Op.delKey k))).1 k s = none) ∧
    (∀ snap : Snapshot, snap.version ≤ σ.currentVersion →
      ∀ s, snapshotGet (applyOp σ (Op.delKey k)) snap k s = snapshotGet σ snap k s) := by
  constructor
  · intro s
    show toHandle (resolveChain
        (lookupChain (applyOp σ (Op.delKey k)).index k s) (σ.currentVersion + 1)) = none
    have hlk : lookupChain (applyOp σ (Op.delKey k)).index k s =
        if isLive σ.currentVersion (lookupChain σ.index k s)
        then ⟨σ.currentVersion + 1, none⟩ :: lookupChain σ.index k s
        else lookupChain σ.index k s := by
      show lookupList (lookupSubkeys
          (deleteKeyIndex σ.index k σ.currentVersion (σ.currentVersion + 1)) k) s = _
      rw [lookupSubkeys_deleteKeyIndex, if_pos rfl, lookupList_tombstoneLive]
      rfl
    rw [hlk]
    by_cases hl : isLive σ.currentVersion (lookupChain σ.index k s)
    · rw [if_pos hl, resolveChain_cons, if_pos (Nat.le_refl _)]
      rfl
    · rw [if_neg hl,
        resolveChain_eq_of_le (fun e he => ((lookupChain_wf hWF k s).2 e he).2) (Nat.le_succ _)]
      cases hh : toHandle (resolveChain (lookupChain σ.index k s) σ.currentVersion) with
      | none => rfl
      | some pv =>
        exact absurd (show isLive σ.currentVersion (lookupChain σ.index k s) = true by
          unfold isLive; rw [hh]; rfl) hl
  · intro snap hv s
    exact snapshotGet_applyOps σ [Op.delKey k] snap hv k s

/-- Witness for C5 on a concrete storage with two live subkeys. -/
theorem delete_key_atomic_witness :
    snapshotGet (applyOp (applyOps Storage.empty [Op.put 7 1 10, Op.put 7 2 20]) (Op.delKey 7))
      (takeSnapshot (applyOp (applyOps Storage.empty [Op.put 7 1 10, Op.put 7 2 20])
        (Op.delKey 7))).1 7 1 = none :=
  (delete_key_atomic (applyOps Storage.empty [Op.put 7 1 10, Op.put 7 2 20]) 7 (by decide)).1 1

/-- Claim C6 counterexample: after Put(0,0,5) at version 2 and Put(0,0,7) at
version 3, the snapshot taken at version 2 — strictly before the second
Put's version — does not return absent for (0,0): it returns the handle
(5, 2).  The claim's clause that any snapshot strictly before a Put's
version sees (k, s) absent is therefore false as stated. -/
theorem put_roundtrip_counterexample :
    (takeSnapshot (applyOps Storage.empty [Op.put 0 0 5])).1.version
        < (applyOp (applyOps Storage.empty [Op.put 0 0 5]) (Op.put 0 0 7)).currentVersion ∧
    snapshotGet (applyOp (applyOps Storage.empty [Op.put 0 0 5]) (Op.put 0 0 7))
        (takeSnapshot (applyOps Storage.empty [Op.put 0 0 5])).1 0 0 = some (5, 2) ∧
    snapshotGet (applyOp (applyOps Storage.empty [Op.put 0 0 5]) (Op.put 0 0 7))
        (takeSnapshot (applyOps Storage.empty [Op.put 0 0 5])).1 0 0 ≠ none := by
  decide

/-- Claim C6 (amended): Put/Get round-trip — `Put(k, s, p)` followed by
`Get(k, s)` on a snapshot taken after the Put returns `p` tagged with the
version the Put just assigned; and a snapshot at a version strictly before
the Put's version returns absent for (k, s) provided (k, s) already
resolved to absent at that version before the Put (for example when this
Put is the first write ever to (k, s)). -/
theorem put_roundtrip (σ : Storage) (k : Key) (s : Subkey) (p : Payload) :
    snapshotGet (applyOp σ (Op.put k s p))
        (takeSnapshot (applyOp σ (Op.put k s p))).1 k s = some (p, σ.currentVersion + 1) ∧
    ∀ snap : Snapshot, snap.version ≤ σ.currentVersion →
      snapshotGet σ snap k s = none →
        snapshotGet (applyOp σ (Op.put k s p)) snap k s = none := by
  constructor
  · show toHandle (resolveChain
        (lookupChain (updateIndex σ.index k s ⟨σ.currentVersion + 1, some p⟩) k s)
        (σ.currentVersion + 1)) = some (p, σ.currentVersion + 1)
    rw [lookupChain_updateIndex, if_pos ⟨rfl, rfl⟩, resolveChain_cons,
      if_pos (Nat.le_refl _)]
    rfl
  · intro snap hv h0
    rw [show applyOp σ (Op.put k s p) = applyOps σ [Op.put k s p] from rfl,
      snapshotGet_applyOps σ [Op.put k s p] snap hv k s]
    exact h0

/-- Witness for C6 (amended) on a concrete storage. -/
theorem put_roundtrip_witness :
    snapshotGet (applyOp Storage.empty (Op.put 3 4 9))
        (takeSnapshot (applyOp Storage.empty (Op.put 3 4 9))).1 3 4 = some (9, 2) ∧
    snapshotGet (applyOp Storage.empty (Op.put 3 4 9)) ⟨true, 1, 0, 0⟩ 3 4 = none :=
  ⟨(put_roundtrip Storage.empty 3 4 9).1,
   (put_roundtrip Storage.empty 3 4 9).2 ⟨true, 1, 0, 0⟩ (by decide) (by decide)⟩

/-- Claim C7: subkey-count agreement — `GetSubkeysCount(key)` equals the
length of the subkey enumeration produced by `GetSubkeys` on the KeyView
returned by `Get(key)`, and equals 0 when `Get(key)` returns an empty
optional. -/
theorem subkeys_count_agrees (σ : Storage) (snap : Snapshot) (k : Key) :
    (∀ kv, snapshotGetKey σ snap k = some kv →
        getSubkeysCount σ snap k = (getSubkeys snap kv).length) ∧
    (snapshotGetKey σ snap k = none → getSubkeysCount σ snap k = 0) := by
  constructor
  · intro kv hkv
    unfold getSubkeysCount
    rw [hkv]
    unfold getSubkeys
    exact (length_getSubkeys_list snap.version kv.state).symm
  · intro h
    unfold getSubkeysCount
    rw [h]

/-- Witness for C7 on a concrete storage with two live subkeys. -/
theorem subkeys_count_agrees_witness :
    getSubkeysCount (applyOps Storage.empty [Op.put 7 1 10, Op.put 7 2 20])
        (takeSnapshot (applyOps Storage.empty [Op.put 7 1 10, Op.put 7 2 20])).1 7
      = (getSubkeys (takeSnapshot (applyOps Storage.empty [Op.put 7 1 10, Op.put 7 2 20])).1
          ⟨7, [(1, [⟨2, some 10⟩]), (2, [⟨3, some 20⟩])]⟩).length :=
  (subkeys_count_agrees (applyOps Storage.empty [Op.put 7 1 10, Op.put 7 2 20])
      (takeSnapshot (applyOps Storage.empty [Op.put 7 1 10, Op.put 7 2 20])).1 7).1
    ⟨7, [(1, [⟨2, some 10⟩]), (2, [⟨3, some 20⟩])]⟩ (by decide)

/-- Claim C8: key enumeration — iterating a snapshot yields exactly the keys
that have at least one non-tombstone subkey at the snapshot's version, each
exactly once, and restarting the iteration — even after further mutations
of the shared structure — yields the same keys, because the pinned index is
never mutated in place. -/
theorem key_enumeration (σ : Storage) (hWF : StorageWF σ) :
    (∀ k, k ∈ snapshotKeys σ (takeSnapshot σ).1 ↔
        (snapshotGetKey σ (takeSnapshot σ).1 k).isSome = true) ∧
    (snapshotKeys σ (takeSnapshot σ).1).Nodup ∧
    ∀ ops, snapshotKeys (applyOps σ ops) (takeSnapshot σ).1
        = snapshotKeys σ (takeSnapshot σ).1 := by
  refine ⟨?_, ?_, fun ops => snapshotKeys_applyOps σ ops _ (Nat.le_refl _)⟩
  · intro k
    show k ∈ (σ.index.filter fun ks => keyHasSubkeys σ.currentVersion ks.2).map Prod.fst ↔
      (if keyHasSubkeys σ.currentVersion (lookupSubkeys σ.index k) then
          some (KeyView.mk k (lookupSubkeys σ.index k)) else none).isSome = true
    by_cases hp : keyHasSubkeys σ.currentVersion (lookupSubkeys σ.index k)
    · rw [if_pos hp]
      simp only [Option.isSome_some]
      constructor
      · intro _
        trivial
      · intro _
        rcases lookupSubkeys_eq σ.index k with h0 | ⟨ks, hks, hfst, heq⟩
        · rw [h0] at hp
          exact absurd hp Bool.false_ne_true
        · exact List.mem_map.2 ⟨ks, List.mem_filter.2 ⟨hks, by rw [← heq]; exact hp⟩, hfst⟩
    · rw [if_neg hp]
      simp only [Option.isSome_none]
      constructor
      · intro hk
        exfalso
        obtain ⟨ks, hks, hfst⟩ := List.mem_map.1 hk
        have hmem := (List.mem_filter.1 hks).1
        have hpred := (List.mem_filter.1 hks).2
        have hlook : lookupSubkeys σ.index k = ks.2 := by
          apply lookupSubkeys_of_nodup hWF.2.1
          rw [← hfst]
          simpa using hmem
        rw [hlook] at hp
        exact hp hpred
      · intro hk
        exact absurd hk Bool.false_ne_true
  · show ((σ.index.filter fun ks => keyHasSubkeys σ.currentVersion ks.2).map Prod.fst).Nodup
    exact hWF.2.1.sublist (List.Sublist.map Prod.fst (List.filter_sublist σ.index))

/-- Witness for C8 on a concrete storage. -/
theorem key_enumeration_witness :
    7 ∈ snapshotKeys (applyOps Storage.empty [Op.put 7 1 10])
        (takeSnapshot (applyOps Storage.empty [Op.put 7 1 10])).1 :=
  ((key_enumeration (applyOps Storage.empty [Op.put 7 1 10]) (by decide)).1 7).2 (by decide)

/-- Claim C9: mutation atomicity under allocation failure — a mutating call
under an insufficient allocation budget fails and leaves the storage exactly
as it was (and still well-formed); under a sufficient budget it fully
publishes the new version.  There is no third outcome: the mutation is never
partially applied. -/
theorem mutation_alloc_atomic (σ : Storage) (fuel : Nat) (op : Op) (hWF : StorageWF σ) :
    ((applyOpChecked σ fuel op).2 = false →
      (applyOpChecked σ fuel op).1 = σ ∧ StorageWF (applyOpChecked σ fuel op).1) ∧
    ((applyOpChecked σ fuel op).2 = true →
      (applyOpChecked σ fuel op).1 = applyOp σ op ∧
        StorageWF (applyOpChecked σ fuel op).1 ∧
        (applyOpChecked σ fuel op).1.currentVersion = σ.currentVersion + 1) := by
  unfold applyOpChecked
  by_cases hc : allocCost σ op ≤ fuel
  · rw [if_pos hc]
    refine ⟨fun h => absurd h (by simp), fun _ => ⟨rfl, applyOp_WF hWF op, ?_⟩⟩
    exact applyOp_currentVersion σ op
  · rw [if_neg hc]
    exact ⟨fun _ => ⟨rfl, hWF⟩, fun h => absurd h (by simp)⟩

/-- Witness for C9: with no budget the Put fails and the storage is
untouched; with budget 2 the same Put is fully published. -/
theorem mutation_alloc_atomic_witness :
    (applyOpChecked Storage.empty 0 (Op.put 0 0 5)).1 = Storage.empty ∧
    (applyOpChecked Storage.empty 2 (Op.put 0 0 5)).1 = applyOp Storage.empty (Op.put 0 0 5) :=
  ⟨((mutation_alloc_atomic Storage.empty 0 (Op.put 0 0 5) (by decide)).1 (by decide)).1,
   ((mutation_alloc_atomic Storage.empty 2 (Op.put 0 0 5) (by decide)).2 (by decide)).1⟩

/-- Claim C10: default snapshot is the empty invalid state — a
default-constructed snapshot has version 0 (the reserved/invalid version),
zero cached key and subkey counts, and references no index block, so
against any storage its `Get(key, subkey)` returns the empty handle, its
`Get(key)` returns an empty optional, its `GetSubkeysCount` returns 0, and
its key iteration yields nothing. -/
theorem default_snapshot_empty :
    Snapshot.initial.version = 0 ∧ Snapshot.initial.keysCount = 0 ∧
    Snapshot.initial.subkeysCount = 0 ∧ Snapshot.initial.hasBlock = false ∧
    ∀ (σ : Storage) (k : Key) (s : Subkey),
      snapshotGet σ Snapshot.initial k s = none ∧
      snapshotGetKey σ Snapshot.initial k = none ∧
      getSubkeysCount σ Snapshot.initial k = 0 ∧
      snapshotKeys σ Snapshot.initial = [] :=
  ⟨rfl, rfl, rfl, rfl, fun _ _ _ => ⟨rfl, rfl, rfl, rfl⟩⟩

end VersionedStorage
